import Mathlib

/-!
Shallow embedding of the DuckIndex backend core (src-tauri/src).

Paths, file names and item contents are modelled as lists of characters
(`Str`), mirroring the UTF-8 strings the Rust code passes around; the
OS path separator is `'/'` (`std::path::MAIN_SEPARATOR` on Unix).
Timestamps (RFC3339 strings produced by `Local::now().to_rfc3339()` and
`fs::metadata(..).modified()`) are opaque tokens compared only for
equality, modelled as `String`.

The SQLite tables `directories`, `files`, `items` and `tasks`
(schemas in src/sqlite.rs and the `tasks` schema actually used by
`Worker::add_task`, created by `Worker::reset_worker` in src/worker.rs
with `UNIQUE (type, path)`) are modelled as lists of rows plus a
`next id` counter for `INTEGER PRIMARY KEY` assignment.
-/

namespace DuckIndex

abbrev Str := List Char

/-! ### Path model (Unix flavour of `std::path`)

`Path::is_absolute`, `Path::file_name`, `Path::parent` and `Path::join`
for clean absolute paths (no `.`/`..` components), matching how the code
uses them through `utils.rs` (`filename_to_str`, `parent_to_str`).
-/

def isAbsolute (p : Str) : Bool := p.head? == some '/'

/-- Split a character list at `'/'` separators (keeping empty segments). -/
def splitSlash : Str → List Str
  | [] => [[]]
  | c :: rest =>
    if c = '/' then [] :: splitSlash rest
    else
      match splitSlash rest with
      | [] => [[c]]
      | h :: t => (c :: h) :: t

/-- Non-empty path components, as `Path::components` yields them
for clean paths. -/
def pathComps (p : Str) : List Str := (splitSlash p).filter (fun s => s ≠ [])

/-- `Path::file_name` (via `utils::filename_to_str`). -/
def fileNameOf (p : Str) : Option Str := (pathComps p).getLast?

/-- Render an absolute path from its components. -/
def joinComps : List Str → Str
  | [] => []
  | [c] => c
  | c :: rest => c ++ '/' :: joinComps rest

def renderAbs (cs : List Str) : Str := '/' :: joinComps cs

/-- `Path::parent` (via `utils::parent_to_str`). -/
def parentOf (p : Str) : Option Str :=
  match pathComps p with
  | [] => none
  | cs => some (renderAbs cs.dropLast)

/-- `Path::join` of an absolute base and a single file name. -/
def joinPath (p : Str) (name : Str) : Str :=
  if p = ['/'] then '/' :: name else p ++ '/' :: name

/-! ### SQLite `LIKE` matching

`Indexer::search_*` and `get_sub_directories_and_files` interpolate the
query into `LIKE '%…%'` patterns.  SQLite's default `LIKE` is
case-insensitive for the ASCII range and treats `%` as "any sequence"
and `_` as "any single character" (no `ESCAPE` clause is used).
-/

/-- ASCII lower-casing, as SQLite's `LIKE` applies to both operands. -/
def lcChar (c : Char) : Char :=
  if 'A' ≤ c ∧ c ≤ 'Z' then Char.ofNat (c.toNat + 32) else c

def likeMatch : Str → Str → Bool
  | [], s => s.isEmpty
  | '%' :: p, s => s.tails.any (fun t => likeMatch p t)
  | '_' :: p, s =>
    match s with
    | [] => false
    | _ :: s' => likeMatch p s'
  | c :: p, s =>
    match s with
    | [] => false
    | d :: s' => lcChar c == lcChar d && likeMatch p s'

structure DirRow where
  id : Nat
  name : Str
  path : Str
  mtime : String
deriving DecidableEq, Repr

structure FileRow where
  id : Nat
  directoryId : Nat
  name : Str
  mtime : String
deriving DecidableEq, Repr

structure ItemRow where
  id : Nat
  fileId : Nat
  content : Str
deriving DecidableEq, Repr

structure TaskRow where
  id : Nat
  ttype : String
  path : Str
  status : String
  createdAt : String
  updatedAt : String
deriving DecidableEq, Repr

structure Db where
  directories : List DirRow
  files : List FileRow
  items : List ItemRow
  tasks : List TaskRow
  nextDirId : Nat
  nextFileId : Nat
  nextItemId : Nat
  nextTaskId : Nat
deriving DecidableEq, Repr

def emptyDb : Db :=
  { directories := [], files := [], items := [], tasks := []
    nextDirId := 1, nextFileId := 1, nextItemId := 1, nextTaskId := 1 }

/-! ### Query result shapes (indexer.rs) -/

/-- `SearchResultDirectory` (also reused for sub-directory listings). -/
structure DirOut where
  name : Str
  path : Str
  mtime : String
deriving DecidableEq, Repr

/-- `SearchResultFile`: `path` is the owning directory's path. -/
structure FileOut where
  name : Str
  path : Str
  mtime : String
deriving DecidableEq, Repr

def addTask (ttype : String) (path : Str) (now : String) (db : Db) : Nat × Db :=
  match db.tasks.find? (fun t => t.ttype == ttype && t.path == path) with
  | some t =>
    (t.id,
      { db with
        tasks := db.tasks.map (fun r =>
          if r.ttype = ttype ∧ r.path = path then
            { r with status := "PENDING", updatedAt := now }
          else r) })
  | none =>
    (db.nextTaskId,
      { db with
        tasks := db.tasks ++
          [{ id := db.nextTaskId, ttype := ttype, path := path
             status := "PENDING", createdAt := now, updatedAt := now }]
        nextTaskId := db.nextTaskId + 1 })

/-- The claim statement's subquery in `Worker::process_task`
(worker.rs:320-327): `SELECT id FROM tasks WHERE status = 'PENDING'
ORDER BY id LIMIT 1`. -/
def pendingMinId (db : Db) : Option Nat :=
  ((db.tasks.filter (fun t => t.status == "PENDING")).map (fun t => t.id)).min?

/-- The atomic claim statement of `Worker::process_task`
(worker.rs:319-340): update the selected row to RUNNING and return its
`id, type, path` (`RETURNING`); `QueryReturnedNoRows` when no PENDING
row exists. -/
def claimTask (now : String) (db : Db) : Option (Nat × String × Str) × Db :=
  match pendingMinId db with
  | none => (none, db)
  | some i =>
    match db.tasks.find? (fun r => r.id == i) with
    | none => (none, db)
    | some t =>
      (some (t.id, t.ttype, t.path),
        { db with
          tasks := db.tasks.map (fun r =>
            if r.id = i then { r with status := "RUNNING", updatedAt := now }
            else r) })

/-! ### Index store (indexer.rs)

The `stat` parameter models `Indexer::get_modified_time`
(`fs::metadata(path)?.modified()?` rendered to RFC3339): `none` means
the path does not exist or cannot be statted.
-/

/-- `Indexer::write_directory` (indexer.rs:60-72): check the path is
absolute, take its file name, stat it, then
`INSERT INTO directories … ON CONFLICT(path) DO UPDATE SET
modified_time = ?3 RETURNING id` (`UNIQUE (path)`). -/
def writeDirectory (stat : Str → Option String) (p : Str) (db : Db) :
    Except String (Nat × Db) :=
  if !(isAbsolute p) then .error "not absolute" else
  match fileNameOf p with
  | none => .error "no file name"
  | some name =>
    match stat p with
    | none => .error "stat failed"
    | some mt =>
      match db.directories.find? (fun d => d.path == p) with
      | some d =>
        .ok (d.id,
          { db with
            directories := db.directories.map (fun r =>
              if r.path = p then { r with mtime := mt } else r) })
      | none =>
        .ok (db.nextDirId,
          { db with
            directories := db.directories ++
              [{ id := db.nextDirId, name := name, path := p, mtime := mt }]
            nextDirId := db.nextDirId + 1 })

/-- `Indexer::get_directory` (indexer.rs:74-88): exact lookup by path;
errors (modelled as `none`) on non-absolute paths or missing rows. -/
def getDirectory (p : Str) (db : Db) : Option DirRow :=
  if !(isAbsolute p) then none else db.directories.find? (fun d => d.path == p)

/-- `Indexer::get_file` (indexer.rs:90-110): join `files` with
`directories` on `directory_id`, matching the parent path and file
name (both passed as bound parameters). -/
def getFile (p : Str) (db : Db) : Option FileOut :=
  if !(isAbsolute p) then none else
  match parentOf p, fileNameOf p with
  | some par, some name =>
    match db.directories.find? (fun d => d.path == par) with
    | none => none
    | some d =>
      match db.files.find? (fun f => f.directoryId == d.id && f.name == name) with
      | none => none
      | some f => some { name := f.name, path := d.path, mtime := f.mtime }
  | _, _ => none

/-- The file-row upsert inside `Indexer::write_file_items`
(indexer.rs:122-126): `INSERT INTO files … ON CONFLICT(directory_id,
name) DO UPDATE SET modified_time = ?3 RETURNING id`. -/
def upsertFileRow (dirId : Nat) (name : Str) (mt : String) (db1 : Db) : Nat × Db :=
  match db1.files.find? (fun f => f.directoryId == dirId && f.name == name) with
  | some f =>
    (f.id,
      { db1 with
        files := db1.files.map (fun r =>
          if r.directoryId = dirId ∧ r.name = name then
            { r with mtime := mt }
          else r) })
  | none =>
    (db1.nextFileId,
      { db1 with
        files := db1.files ++
          [{ id := db1.nextFileId, directoryId := dirId
             name := name, mtime := mt }]
        nextFileId := db1.nextFileId + 1 })

/-- `Indexer::write_file_items` (indexer.rs:112-154): check absolute,
upsert the parent directory, stat the file, upsert the file row
(`UNIQUE (directory_id, name)`), then batch-insert the items (chunks of
1000 rows, which is equivalent to appending them in order). -/
def writeFileItems (stat : Str → Option String) (p : Str) (items : List Str)
    (db : Db) : Except String (Nat × Db) :=
  if !(isAbsolute p) then .error "not absolute" else
  match parentOf p with
  | none => .error "no parent"
  | some par =>
    match writeDirectory stat par db with
    | .error e => .error e
    | .ok (dirId, db1) =>
      match fileNameOf p with
      | none => .error "no file name"
      | some name =>
        match stat p with
        | none => .error "stat failed"
        | some mt =>
          .ok ((upsertFileRow dirId name mt db1).1,
            { (upsertFileRow dirId name mt db1).2 with
              items := (upsertFileRow dirId name mt db1).2.items ++
                items.enum.map (fun e =>
                  { id := (upsertFileRow dirId name mt db1).2.nextItemId + e.1
                    fileId := (upsertFileRow dirId name mt db1).1, content := e.2 })
              nextItemId := (upsertFileRow dirId name mt db1).2.nextItemId + items.length })

/-- `Indexer::delete_file` (indexer.rs:298-317): one transaction that
deletes the items of every file row matching `(name, parent path)` and
then those file rows; both keys are bound parameters. -/
def deleteFile (p : Str) (db : Db) : Except String Db :=
  if !(isAbsolute p) then .error "not absolute" else
  match fileNameOf p with
  | none => .error "no file name"
  | some name =>
    match parentOf p with
    | none => .error "no parent"
    | some par =>
      let dirIds := (db.directories.filter (fun d => d.path == par)).map (fun d => d.id)
      let fids := (db.files.filter
        (fun f => f.name == name && dirIds.contains f.directoryId)).map (fun f => f.id)
      .ok { db with
            items := db.items.filter (fun i => !(fids.contains i.fileId))
            files := db.files.filter (fun f =>
              !(f.name == name && dirIds.contains f.directoryId)) }

/-- `Indexer::get_sub_directories_and_files` (indexer.rs:156-207):
directories via `path LIKE '{p}/%' AND path NOT LIKE '{p}/%/%'`
(separator interpolated by `format!`), files via a join on
`directories.path = ?1`. -/
def getSubDirectoriesAndFiles (p : Str) (db : Db) :
    Except String (List DirOut × List FileOut) :=
  if !(isAbsolute p) then .error "not absolute" else
  let pat1 := p ++ ['/', '%']
  let pat2 := p ++ ['/', '%', '/', '%']
  let dirs := (db.directories.filter (fun d =>
    likeMatch pat1 d.path && !(likeMatch pat2 d.path))).map (fun d =>
      ({ name := d.name, path := d.path, mtime := d.mtime } : DirOut))
  let files := (db.directories.filter (fun d => d.path == p)).flatMap (fun d =>
    (db.files.filter (fun f => f.directoryId == d.id)).map (fun f =>
      ({ name := f.name, path := d.path, mtime := f.mtime } : FileOut)))
  .ok (dirs, files)

def deleteDirectoryGo : Nat → Str → Db → Except String Db
  | 0, _, _ => .error "fuel exhausted"
  | fuel + 1, p, db =>
    match getSubDirectoriesAndFiles p db with
    | .error e => .error e
    | .ok (subDirs, files) =>
      let afterFiles : Except String Db :=
        files.foldlM (fun acc f => deleteFile (joinPath f.path f.name) acc) db
      match afterFiles with
      | .error e => .error e
      | .ok db1 =>
        match subDirs.foldlM (fun acc d => deleteDirectoryGo fuel d.path acc) db1 with
        | .error e => .error e
        | .ok db2 =>
          .ok { db2 with
                directories := db2.directories.filter (fun d => !(d.path == p)) }

def deleteDirectory (p : Str) (db : Db) : Except String Db :=
  deleteDirectoryGo (db.directories.length + 1) p db

/-! ### The Reconciler: `Worker::submit_index_all_files` (worker.rs:163-259)

The filesystem is modelled as a tree of nodes carrying the modified
times `Indexer::get_modified_time` reports; `fs::read_dir` yields the
`entries` list in order.  `sup` models `CompositeReader::supports` as a
function of the full path (extension whitelist + hidden-file check),
and `now` the `Local::now()` timestamps used by `add_task`.

In the changed-directory branch the code collects the stale indexed
children into `HashSet`s and deletes each member of the difference;
iteration order of a `HashSet` is unspecified, and the embedding uses
the enumeration order of the index query.
-/

inductive FsNode where
  | file (mtime : String)
  | dir (mtime : String) (entries : List (Str × FsNode))

def FsNode.isDir : FsNode → Bool
  | .dir _ _ => true
  | .file _ => false

mutual

def submitIndexAllFiles (sup : Str → Bool) (now : String) (p : Str)
    (n : FsNode) (db : Db) : Except String Db :=
  match n with
  | .file _ =>
    -- worker.rs:246-252: `path.is_file()` branch
    match deleteFile p db with
    | .error e => .error e
    | .ok db1 => if sup p then .ok (addTask "FILE" p now db1).2 else .ok db1
  | .dir mt entries =>
    let checked : Except String Db :=
      match getDirectory p db with
      | some idxDir =>
        -- worker.rs:166-208: directory already indexed
        if idxDir.mtime = mt then .ok db
        else
          let db1 := (addTask "DIRECTORY" p now db).2
          match getSubDirectoriesAndFiles p db1 with
          | .error e => .error e
          | .ok (idxSubDirs, idxSubFiles) =>
            let curSubDirs := (entries.filter (fun e => e.2.isDir)).map
              (fun e => joinPath p e.1)
            let curSubFiles := (entries.filter (fun e => !(e.2.isDir))).map
              (fun e => joinPath p e.1)
            let staleDirs := (idxSubDirs.map (fun d => d.path)).filter
              (fun q => !(curSubDirs.contains q))
            let staleFiles := (idxSubFiles.map (fun f => joinPath f.path f.name)).filter
              (fun q => !(curSubFiles.contains q))
            match staleDirs.foldlM (fun acc q => deleteDirectory q acc) db1 with
            | .error e => .error e
            | .ok db2 => staleFiles.foldlM (fun acc q => deleteFile q acc) db2
      | none =>
        -- worker.rs:209-213: directory not yet indexed
        .ok (addTask "DIRECTORY" p now db).2
    match checked with
    | .error e => .error e
    | .ok db1 => submitEntries sup now p entries db1

/-- One iteration of the `fs::read_dir` loop (worker.rs:217-244):
files are checked against the index inline, directories recurse. -/
def submitEntryStep (sup : Str → Bool) (now : String) (p : Str) :
    Str × FsNode → Db → Except String Db
  | (name, .file fmt), db =>
    match getFile (joinPath p name) db with
    | some idxFile =>
      if idxFile.mtime = fmt then .ok db
      else
        match deleteFile (joinPath p name) db with
        | .error er => .error er
        | .ok db1 =>
          if sup (joinPath p name) then
            .ok (addTask "FILE" (joinPath p name) now db1).2
          else .ok db1
    | none =>
      if sup (joinPath p name) then
        .ok (addTask "FILE" (joinPath p name) now db).2
      else .ok db
  | (name, .dir mt2 en2), db => submitIndexAllFiles sup now (joinPath p name) (.dir mt2 en2) db

/-- The `fs::read_dir` loop (worker.rs:215-245). -/
def submitEntries (sup : Str → Bool) (now : String) (p : Str) :
    List (Str × FsNode) → Db → Except String Db
  | [], db => .ok db
  | e :: rest, db =>
    match submitEntryStep sup now p e db with
    | .error er => .error er
    | .ok db1 => submitEntries sup now p rest db1

end

/-- The top-level dispatch of `submit_index_all_files`: `path.exists()`
is false exactly when the filesystem has no node for the path
(worker.rs:253-257). -/
def submitIndexEntry (sup : Str → Bool) (now : String) (p : Str)
    (node : Option FsNode) (db : Db) : Except String Db :=
  match node with
  | some n => submitIndexAllFiles sup now p n db
  | none =>
    match deleteDirectory p db with
    | .error e => .error e
    | .ok db1 => deleteFile p db1

/-! ### `Worker::process_task` (worker.rs:317-378)

`fs` models the filesystem view at processing time: `none` when the
path no longer exists, otherwise its kind and modified time.  `reader`
models `CompositeReader::read`.  Errors reached through `?` abort the
call before the task row is deleted; an extractor error is only logged
(worker.rs:359-362).
-/

inductive FsKind where
  | file
  | dir
deriving DecidableEq, Repr

def statOf (fs : Str → Option (FsKind × String)) (p : Str) : Option String :=
  (fs p).map (fun m => m.2)

def isFileAt (fs : Str → Option (FsKind × String)) (p : Str) : Bool :=
  match fs p with
  | some (FsKind.file, _) => true
  | _ => false

def isDirAt (fs : Str → Option (FsKind × String)) (p : Str) : Bool :=
  match fs p with
  | some (FsKind.dir, _) => true
  | _ => false

def processTask (fs : Str → Option (FsKind × String))
    (reader : Str → Except String (List Str)) (now : String) (db : Db) :
    Except String Db :=
  match claimTask now db with
  | (none, db') => .ok db'   -- no pending task: sleep 1 s and return Ok
  | (some (id, ttype, path), db1) =>
    let dispatch : Except String Db :=
      match ttype with
      | "DIRECTORY" =>
        if isDirAt fs path then
          match writeDirectory (statOf fs) path db1 with
          | .error e => .error e
          | .ok r => .ok r.2
        else .ok db1
      | "FILE" =>
        if isFileAt fs path then
          match reader path with
          | .ok items =>
            match writeFileItems (statOf fs) path items db1 with
            | .error e => .error e
            | .ok r => .ok r.2
          | .error _ => .ok db1   -- "读取文件失败": logged only
        else .ok db1
      | _ => .error "unknown task type"   -- TaskType::from_str(..).unwrap() panics
    match dispatch with
    | .error e => .error e
    | .ok db2 =>
      .ok { db2 with tasks := db2.tasks.filter (fun t => !(t.id == id)) }

/-! ### Command surface: `add_index_path` (lib.rs:64-83)

Application state beyond the database: the configured root list
(config key `IndexDirPaths`) and the monitor's watched-path set.
-/

structure AppState where
  roots : List Str
  watched : List Str
  db : Db
deriving DecidableEq, Repr

/-- Modelled from the spec: `monitor::add_watched_path` is declared and
called (lib.rs:17, lib.rs:69) but its body is not among the sources;
§4.G specifies only that the monitor "Exposes add_watched_path(path)
... guarded by a mutex" registering the path with the recursive
watcher, with no duplicate rejection, so the model records the path in
the watched set (a re-watch of an already watched path succeeds). -/
def addWatchedPath (p : Str) (st : AppState) : AppState :=
  { st with watched := if st.watched.contains p then st.watched else st.watched ++ [p] }

/-- `add_index_path` (lib.rs:64-83).  The source carries
`// TODO 检查是否重复、覆盖` — no duplicate check is performed: it
watches the path, runs the Reconciler, and unconditionally appends the
path to the configured root list.  (`disable_auto_vacuum` /
`enable_auto_vacuum` are PRAGMA toggles absent from the sources with no
effect on the data model.) -/
def addIndexPath (sup : Str → Bool) (now : String) (node : Option FsNode)
    (p : Str) (st : AppState) : Except String AppState :=
  let st1 := addWatchedPath p st
  match submitIndexEntry sup now p node st1.db with
  | .error e => .error e
  | .ok db1 => .ok { st1 with db := db1, roots := st1.roots ++ [p] }

/-! ### `TxtReader::read` (reader.rs:107-127)

`BufReader::lines` repeatedly calls `read_line`: bytes are consumed up
to and including each `0x0A`, each such chunk must be valid UTF-8
(otherwise the iterator yields an `InvalidData` error which `line?`
propagates, failing the whole read), and a trailing `"\n"` — plus a
`'\r'` directly before it — is stripped from each decoded line.

Bytes are `Nat`s (< 256 in any real input); decoded text is a list of
Unicode scalar values (`Nat` codepoints), which is what a Rust `String`
holds.
-/

/-- UTF-8 continuation byte. -/
def contOk (b : Nat) : Bool := 128 ≤ b && b < 192

mutual

/-- Strict UTF-8 decoding to codepoints: rejects lone/overlong
sequences, surrogates and values above U+10FFFF, as Rust's
`String::from_utf8` does. -/
def utf8Decode : List Nat → Option (List Nat)
  | [] => some []
  | b0 :: rest =>
    if b0 < 128 then (utf8Decode rest).map (fun l => b0 :: l)
    else if b0 < 192 then none
    else if b0 < 224 then utf8Cont2 b0 rest
    else if b0 < 240 then utf8Cont3 b0 rest
    else if b0 < 248 then utf8Cont4 b0 rest
    else none

/-- Continuation of a 2-byte sequence led by `b0`. -/
def utf8Cont2 (b0 : Nat) : List Nat → Option (List Nat)
  | b1 :: rest1 =>
    if contOk b1 && decide (128 ≤ (b0 - 192) * 64 + (b1 - 128)) then
      (utf8Decode rest1).map (fun l => ((b0 - 192) * 64 + (b1 - 128)) :: l)
    else none
  | [] => none

/-- Continuation of a 3-byte sequence led by `b0`. -/
def utf8Cont3 (b0 : Nat) : List Nat → Option (List Nat)
  | b1 :: b2 :: rest2 =>
    if contOk b1 && contOk b2 &&
        decide (2048 ≤ (b0 - 224) * 4096 + (b1 - 128) * 64 + (b2 - 128) ∧
          ¬(55296 ≤ (b0 - 224) * 4096 + (b1 - 128) * 64 + (b2 - 128) ∧
            (b0 - 224) * 4096 + (b1 - 128) * 64 + (b2 - 128) < 57344)) then
      (utf8Decode rest2).map (fun l =>
        ((b0 - 224) * 4096 + (b1 - 128) * 64 + (b2 - 128)) :: l)
    else none
  | _ => none

/-- Continuation of a 4-byte sequence led by `b0`. -/
def utf8Cont4 (b0 : Nat) : List Nat → Option (List Nat)
  | b1 :: b2 :: b3 :: rest3 =>
    if contOk b1 && contOk b2 && contOk b3 &&
        decide (65536 ≤ (b0 - 240) * 262144 + (b1 - 128) * 4096 +
            (b2 - 128) * 64 + (b3 - 128) ∧
          (b0 - 240) * 262144 + (b1 - 128) * 4096 + (b2 - 128) * 64 + (b3 - 128) <
            1114112) then
      (utf8Decode rest3).map (fun l =>
        ((b0 - 240) * 262144 + (b1 - 128) * 4096 + (b2 - 128) * 64 + (b3 - 128)) :: l)
    else none
  | _ => none

end

/-- UTF-8 encoding of a Unicode scalar value. -/
def encodeScalar (n : Nat) : List Nat :=
  if n < 128 then [n]
  else if n < 2048 then [192 + n / 64, 128 + n % 64]
  else if n < 65536 then [224 + n / 4096, 128 + (n / 64) % 64, 128 + n % 64]
  else [240 + n / 262144, 128 + (n / 4096) % 64, 128 + (n / 64) % 64, 128 + n % 64]

def encodeAll (ns : List Nat) : List Nat := (ns.map encodeScalar).flatten

/-- Unicode scalar values: what a Rust `char` can hold. -/
def ScalarOk (n : Nat) : Bool := n < 55296 || (57344 ≤ n && n < 1114112)

/-- Split a byte (or codepoint) sequence into `read_line` chunks: each
chunk runs up to and including a `10` (`'\n'`), the final chunk may
lack it, and their concatenation is the input. -/
def splitNl : List Nat → List (List Nat)
  | [] => []
  | b :: rest =>
    if b = 10 then [10] :: splitNl rest
    else
      match splitNl rest with
      | [] => [[b]]
      | h :: t => (b :: h) :: t

/-- Strip one trailing `'\n'`, and a `'\r'` directly before it, from a
decoded line (std's `Lines::next`). -/
def stripEol (cs : List Nat) : List Nat :=
  if cs.getLast? = some 10 then
    let cs1 := cs.dropLast
    if cs1.getLast? = some 13 then cs1.dropLast else cs1
  else cs

/-- `TxtReader::read` over the raw bytes of the file: one `Item` per
line, or an error if any line is not valid UTF-8. -/
def txtRead (bytes : List Nat) : Except Unit (List (List Nat)) :=
  match (splitNl bytes).mapM utf8Decode with
  | none => .error ()
  | some lns => .ok (lns.map stripEol)

/-! ### Auxiliary definitions used by theorem statements -/

/-- The rows of the `tasks` table holding a given `(type, path)` key. -/
def taskKeyRows (ttype : String) (path : Str) (db : Db) : List TaskRow :=
  db.tasks.filter (fun t => t.ttype == ttype && t.path == path)

/-- A sequence of `add_task` calls for one `(type, path)` key, collecting
the returned row ids. -/
def addTaskRun (ttype : String) (path : Str) : List String → Db → List Nat × Db
  | [], db => ([], db)
  | now :: rest, db =>
    let r := addTask ttype path now db
    let rr := addTaskRun ttype path rest r.2
    (r.1 :: rr.1, rr.2)

/-- The directory ids `delete_file` resolves for the parent path
(its innermost subquery). -/
def delDirIds (par : Str) (db : Db) : List Nat :=
  (db.directories.filter (fun d => d.path == par)).map (fun d => d.id)

/-- The file ids `delete_file` resolves for `(name, parent path)`
(its `SELECT id FROM files …` subquery). -/
def delFids (name par : Str) (db : Db) : List Nat :=
  (db.files.filter (fun f =>
    f.name == name && (delDirIds par db).contains f.directoryId)).map (fun f => f.id)

mutual

/-- The post-drain state the Reconciler converges to: every directory of
the tree has its row with the on-disk modified time, and every file
either has its row with the on-disk modified time or is unsupported and
unindexed (a supported file whose extraction failed violates this). -/
def indexedOk (sup : Str → Bool) (p : Str) (n : FsNode) (db : Db) : Bool :=
  match n with
  | .file _ => true
  | .dir mt entries =>
    (match getDirectory p db with
     | some d => d.mtime == mt
     | none => false) && indexedEntriesOk sup p entries db

def indexedEntryOk (sup : Str → Bool) (p : Str) : Str × FsNode → Db → Bool
  | (name, .file fmt), db =>
    (match getFile (joinPath p name) db with
     | some fr => fr.mtime == fmt
     | none => !(sup (joinPath p name)))
  | (name, .dir mt2 en2), db => indexedOk sup (joinPath p name) (.dir mt2 en2) db

def indexedEntriesOk (sup : Str → Bool) (p : Str) :
    List (Str × FsNode) → Db → Bool
  | [], _ => true
  | e :: rest, db =>
    indexedEntryOk sup p e db && indexedEntriesOk sup p rest db

end

/-! ### Concrete fixtures used by counterexamples and witnesses -/

/-- Root directory `/r` containing the single supported file
`/r/a.txt`, whose extraction fails. -/
def rPath : Str := "/r".toList

def aPath : Str := "/r/a.txt".toList

def nodeC1 : FsNode := .dir "T1" [("a.txt".toList, .file "T2")]

def supC1 : Str → Bool := fun s => s == aPath

def fsC1 : Str → Option (FsKind × String) := fun s =>
  if s == rPath then some (FsKind.dir, "T1")
  else if s == aPath then some (FsKind.file, "T2") else none

/-- The extractor errors on every file (e.g. a corrupt archive). -/
def readerErr : Str → Except String (List Str) := fun _ => .error "corrupt"

def dbRun1 : Db := (submitIndexAllFiles supC1 "t1" rPath nodeC1 emptyDb).toOption.getD emptyDb

def dbHalf : Db := (processTask fsC1 readerErr "t2" dbRun1).toOption.getD emptyDb

/-- State after the first `submit_index_all_files(/r)` and a full drain:
the directory row is written, the failing file left unindexed, and the
queue empty. -/
def dbDrained : Db := (processTask fsC1 readerErr "t3" dbHalf).toOption.getD emptyDb

/-- A store holding one item with content `"ab"` (with its file and
directory rows). -/
def dbC4 : Db :=
  { directories := [{ id := 1, name := "d".toList, path := "/d".toList, mtime := "T" }]
    files := [{ id := 1, directoryId := 1, name := "f.txt".toList, mtime := "T" }]
    items := [{ id := 1, fileId := 1, content := "ab".toList }]
    tasks := []
    nextDirId := 2, nextFileId := 2, nextItemId := 2, nextTaskId := 1 }

/-- A store holding one directory row `/axb/q`, which is not inside
`/a_b` yet matches the `LIKE '/a_b/%'` scan for it. -/
def dbC5 : Db :=
  { directories := [{ id := 1, name := "q".toList, path := "/axb/q".toList, mtime := "T" }]
    files := [], items := [], tasks := []
    nextDirId := 2, nextFileId := 1, nextItemId := 1, nextTaskId := 1 }

/-- A quiescent, fully indexed application state whose root list already
contains `/r`. -/
def nodeC8 : FsNode := .dir "T1" []

def dbC8 : Db :=
  { directories := [{ id := 1, name := "r".toList, path := rPath, mtime := "T1" }]
    files := [], items := [], tasks := []
    nextDirId := 2, nextFileId := 1, nextItemId := 1, nextTaskId := 1 }

def stC8 : AppState := { roots := [rPath], watched := [rPath], db := dbC8 }

/-- A fully indexed store for the tree `nodeC1`: the directory row and
the file row both carry the on-disk modified times. -/
def dbW1 : Db :=
  { directories := [{ id := 1, name := "r".toList, path := rPath, mtime := "T1" }]
    files := [{ id := 1, directoryId := 1, name := "a.txt".toList, mtime := "T2" }]
    items := [{ id := 1, fileId := 1, content := "hello".toList }]
    tasks := []
    nextDirId := 2, nextFileId := 2, nextItemId := 2, nextTaskId := 1 }

/-! ## Theorems -/

/-! ### List helpers -/

theorem eq_singleton_of_length_le_one {α : Type _} {l : List α} {a : α}
    (h : l.length ≤ 1) (ha : a ∈ l) : l = [a] := by
  match l with
  | [] => cases ha
  | [x] => cases List.mem_singleton.mp ha; rfl
  | x :: y :: t => simp at h

theorem find?_of_filter_eq_singleton {α : Type _} {p : α → Bool} {l : List α} {a : α}
    (h : l.filter p = [a]) : l.find? p = some a := by
  induction l with
  | nil => simp at h
  | cons x t ih =>
    by_cases hx : p x
    · rw [List.filter_cons_of_pos hx] at h
      obtain ⟨rfl, -⟩ := List.cons.injEq .. ▸ h
      exact List.find?_cons_of_pos _ hx
    · rw [List.filter_cons_of_neg hx] at h
      rw [List.find?_cons_of_neg _ hx]
      exact ih h

theorem getLast?_getD_of_ne_nil {l : List String} (h : l ≠ []) (d d' : String) :
    l.getLast?.getD d = l.getLast?.getD d' := by
  have : l.getLast?.isSome := List.getLast?_isSome.mpr h
  obtain ⟨x, hx⟩ := Option.isSome_iff_exists.mp this
  rw [hx]; rfl

theorem taskKey_filter_update (ttype : String) (path : Str) (now : String)
    (l : List TaskRow) :
    (l.map (fun r : TaskRow =>
        if r.ttype = ttype ∧ r.path = path then
          { r with status := "PENDING", updatedAt := now } else r)).filter
      (fun u : TaskRow => u.ttype == ttype && u.path == path) =
    (l.filter (fun u : TaskRow => u.ttype == ttype && u.path == path)).map
      (fun r : TaskRow =>
        if r.ttype = ttype ∧ r.path = path then
          { r with status := "PENDING", updatedAt := now } else r) := by
  rw [List.filter_map]
  congr 1
  apply List.filter_congr
  intro x _
  by_cases hx : x.ttype = ttype ∧ x.path = path
  · simp [hx]
  · simp [hx]

theorem addTask_keyRows (ttype : String) (path : Str) (now : String) (db : Db)
    (hkey : (taskKeyRows ttype path db).length ≤ 1) :
    ∃ cr, taskKeyRows ttype path (addTask ttype path now db).2 =
      [{ id := (addTask ttype path now db).1, ttype := ttype, path := path
         status := "PENDING", createdAt := cr, updatedAt := now }] := by
  cases hfind : db.tasks.find? (fun t => t.ttype == ttype && t.path == path) with
  | none =>
    refine ⟨now, ?_⟩
    have hnil : db.tasks.filter
        (fun a : TaskRow => a.ttype == ttype && a.path == path) = [] := by
      rw [List.filter_eq_nil_iff]
      exact List.find?_eq_none.mp hfind
    simp only [addTask, hfind, taskKeyRows, List.filter_append, hnil]
    simp
  | some t =>
    have hpred := List.find?_some hfind
    have hmem := List.mem_of_find?_eq_some hfind
    have htt : t.ttype = ttype ∧ t.path = path := by
      simpa using hpred
    have hsing : taskKeyRows ttype path db = [t] :=
      eq_singleton_of_length_le_one hkey (List.mem_filter.mpr ⟨hmem, hpred⟩)
    refine ⟨t.createdAt, ?_⟩
    simp only [addTask, hfind, taskKeyRows]
    rw [taskKey_filter_update]
    rw [taskKeyRows] at hsing
    rw [hsing]
    simp [htt.1, htt.2]

theorem addTask_of_keyRow (ttype : String) (path : Str) (now : String) (db : Db)
    (t : TaskRow) (hrow : taskKeyRows ttype path db = [t]) :
    (addTask ttype path now db).1 = t.id ∧
    taskKeyRows ttype path (addTask ttype path now db).2 =
      [{ t with status := "PENDING", updatedAt := now }] := by
  have hfind : db.tasks.find? (fun r => r.ttype == ttype && r.path == path) = some t :=
    find?_of_filter_eq_singleton hrow
  have hpred := List.find?_some hfind
  have htt : t.ttype = ttype ∧ t.path = path := by
    simpa using hpred
  rw [taskKeyRows] at hrow
  constructor
  · simp only [addTask, hfind]
  · simp only [addTask, hfind, taskKeyRows]
    rw [taskKey_filter_update, hrow]
    simp [htt.1, htt.2]

theorem addTaskRun_keyRow (ttype : String) (path : Str) :
    ∀ (nows : List String) (db : Db) (t : TaskRow),
    taskKeyRows ttype path db = [t] → t.status = "PENDING" →
    (∀ i ∈ (addTaskRun ttype path nows db).1, i = t.id) ∧
    taskKeyRows ttype path (addTaskRun ttype path nows db).2 =
      [{ t with updatedAt := nows.getLast?.getD t.updatedAt }] := by
  intro nows
  induction nows with
  | nil =>
    intro db t hrow _
    constructor
    · intro i hi
      simp [addTaskRun] at hi
    · simpa [addTaskRun] using hrow
  | cons now rest ih =>
    intro db t hrow hst
    obtain ⟨hid, hrow1⟩ := addTask_of_keyRow ttype path now db t hrow
    have ht1 : ({ t with status := "PENDING", updatedAt := now } : TaskRow) =
        { t with updatedAt := now } := by
      cases t; simp_all
    rw [ht1] at hrow1
    obtain ⟨hids, hfinal⟩ := ih (addTask ttype path now db).2
      ({ t with updatedAt := now }) hrow1 (by simp [hst])
    constructor
    · intro i hi
      rw [addTaskRun] at hi
      rcases List.mem_cons.mp hi with h1 | h2
      · rw [h1, hid]
      · exact hids i h2
    · rw [addTaskRun]
      simp only at hfinal ⊢
      rw [hfinal]
      cases rest with
      | nil => simp
      | cons r rs =>
        have hne : (r :: rs : List String) ≠ [] := by simp
        rw [List.getLast?_cons_cons, getLast?_getD_of_ne_nil hne now t.updatedAt]

/-- C2 main. -/
theorem addTask_idempotent_upsert (ttype : String) (path : Str) (now : String)
    (nows : List String) (db : Db)
    (hkey : (taskKeyRows ttype path db).length ≤ 1) :
    (∀ i ∈ (addTask ttype path now db).1 ::
        (addTaskRun ttype path nows (addTask ttype path now db).2).1,
      i = (addTask ttype path now db).1) ∧
    ∃ cr, taskKeyRows ttype path
        (addTaskRun ttype path nows (addTask ttype path now db).2).2 =
      [{ id := (addTask ttype path now db).1, ttype := ttype, path := path
         status := "PENDING", createdAt := cr
         updatedAt := nows.getLast?.getD now }] := by
  obtain ⟨cr, hrow⟩ := addTask_keyRows ttype path now db hkey
  obtain ⟨hids, hfinal⟩ := addTaskRun_keyRow ttype path nows
    (addTask ttype path now db).2
    ({ id := (addTask ttype path now db).1, ttype := ttype, path := path
       status := "PENDING", createdAt := cr, updatedAt := now }) hrow rfl
  constructor
  · intro i hi
    rcases List.mem_cons.mp hi with h1 | h2
    · exact h1
    · exact hids i h2
  · exact ⟨cr, hfinal⟩

theorem addTask_idempotent_upsert_witness :
    (∀ i ∈ (addTask "FILE" aPath "n1" emptyDb).1 ::
        (addTaskRun "FILE" aPath ["n2", "n3"] (addTask "FILE" aPath "n1" emptyDb).2).1,
      i = (addTask "FILE" aPath "n1" emptyDb).1) ∧
    ∃ cr, taskKeyRows "FILE" aPath
        (addTaskRun "FILE" aPath ["n2", "n3"] (addTask "FILE" aPath "n1" emptyDb).2).2 =
      [{ id := (addTask "FILE" aPath "n1" emptyDb).1, ttype := "FILE", path := aPath
         status := "PENDING", createdAt := cr
         updatedAt := (["n2", "n3"] : List String).getLast?.getD "n1" }] :=
  addTask_idempotent_upsert "FILE" aPath "n1" ["n2", "n3"] emptyDb (by decide)

/-- C3: the claim statement picks the lowest-id PENDING row, marks
exactly it RUNNING, and returns its columns; with no PENDING row the
store is unchanged. -/
theorem claimTask_claims_lowest_pending (now : String) (db : Db)
    (hids : (db.tasks.map (fun t => t.id)).Nodup) :
    (∀ t ∈ db.tasks, t.status = "PENDING" →
      ∃ m ∈ db.tasks, m.status = "PENDING" ∧
        (∀ u ∈ db.tasks, u.status = "PENDING" → m.id ≤ u.id) ∧
        claimTask now db =
          (some (m.id, m.ttype, m.path),
            { db with tasks := db.tasks.map (fun r =>
                if r.id = m.id then { r with status := "RUNNING", updatedAt := now }
                else r) })) ∧
    ((∀ t ∈ db.tasks, t.status ≠ "PENDING") → claimTask now db = (none, db)) := by
  constructor
  · intro t ht hst
    have hfil : t ∈ db.tasks.filter (fun u => u.status == "PENDING") :=
      List.mem_filter.mpr ⟨ht, by simp [hst]⟩
    cases hmin : pendingMinId db with
    | none =>
      exfalso
      rw [pendingMinId, List.min?_eq_none_iff, List.map_eq_nil_iff] at hmin
      rw [hmin] at hfil
      cases hfil
    | some i =>
      rw [pendingMinId] at hmin
      obtain ⟨hmem, hle⟩ := List.min?_eq_some_iff'.mp hmin
      rw [← pendingMinId] at hmin
      obtain ⟨m, hmfil, hmid⟩ := List.mem_map.mp hmem
      have hm : m ∈ db.tasks ∧ m.status = "PENDING" := by
        have := List.mem_filter.mp hmfil
        exact ⟨this.1, by simpa using this.2⟩
      refine ⟨m, hm.1, hm.2, ?_, ?_⟩
      · intro u hu hup
        have : u.id ∈ (db.tasks.filter (fun v => v.status == "PENDING")).map
            (fun v => v.id) :=
          List.mem_map.mpr ⟨u, List.mem_filter.mpr ⟨hu, by simp [hup]⟩, rfl⟩
        have h2 := hle _ this
        omega
      · have hfindsome : ∃ x, db.tasks.find? (fun r => r.id == i) = some x := by
          rw [← Option.isSome_iff_exists, List.find?_isSome]
          exact ⟨m, hm.1, by simp [hmid]⟩
        obtain ⟨x, hx⟩ := hfindsome
        have hxmem := List.mem_of_find?_eq_some hx
        have hxid : x.id = i := by simpa using List.find?_some hx
        have hxm : x = m :=
          List.inj_on_of_nodup_map hids hxmem hm.1 (by rw [hxid, hmid])
        simp only [claimTask, hmin, hx, hxm]
        rw [← hmid]
  · intro h
    have hfil : db.tasks.filter (fun u => u.status == "PENDING") = [] := by
      rw [List.filter_eq_nil_iff]
      intro a ha
      simp [h a ha]
    rw [claimTask, pendingMinId, hfil]
    simp

def dbW3 : Db :=
  { directories := [], files := [], items := []
    tasks := [{ id := 2, ttype := "FILE", path := aPath, status := "PENDING"
                createdAt := "t0", updatedAt := "t0" },
              { id := 1, ttype := "DIRECTORY", path := rPath, status := "PENDING"
                createdAt := "t0", updatedAt := "t0" }]
    nextDirId := 1, nextFileId := 1, nextItemId := 1, nextTaskId := 3 }

theorem claimTask_claims_lowest_pending_witness :
    ∃ m ∈ dbW3.tasks, m.status = "PENDING" ∧
      (∀ u ∈ dbW3.tasks, u.status = "PENDING" → m.id ≤ u.id) ∧
      claimTask "n" dbW3 =
        (some (m.id, m.ttype, m.path),
          { dbW3 with tasks := dbW3.tasks.map (fun r =>
              if r.id = m.id then { r with status := "RUNNING", updatedAt := "n" }
              else r) }) :=
  (claimTask_claims_lowest_pending "n" dbW3 (by decide)).1
    { id := 2, ttype := "FILE", path := aPath, status := "PENDING"
      createdAt := "t0", updatedAt := "t0" } (by decide) rfl

theorem tasks_filter_update (l : List TaskRow) (i : Nat) (now : String) :
    ((l.map (fun r => if r.id = i then { r with status := "RUNNING", updatedAt := now }
        else r)).filter (fun t => !(t.id == i))) =
    l.filter (fun t => !(t.id == i)) := by
  induction l with
  | nil => rfl
  | cons a t ih =>
    by_cases ha : a.id = i
    · simp only [List.map_cons, if_pos ha]
      rw [List.filter_cons_of_neg (by simp [ha]), List.filter_cons_of_neg (by simp [ha])]
      exact ih
    · simp only [List.map_cons, if_neg ha]
      rw [List.filter_cons_of_pos (by simp [ha]), List.filter_cons_of_pos (by simp [ha])]
      rw [ih]

/-- C7: when the claimed task is a FILE task, the path is still a
regular file, and the extractor errors, `process_task` succeeds: the
index tables are untouched and the task row is deleted, all other task
rows (and their statuses) unchanged — none becomes FAILED. -/
theorem processTask_reader_error_completes
    (fs : Str → Option (FsKind × String)) (reader : Str → Except String (List Str))
    (now : String) (db : Db) (i : Nat) (t : TaskRow) (msg : String)
    (hmin : pendingMinId db = some i)
    (hfind : db.tasks.find? (fun r => r.id == i) = some t)
    (htype : t.ttype = "FILE")
    (hfile : isFileAt fs t.path = true)
    (hread : reader t.path = .error msg) :
    processTask fs reader now db =
      .ok { db with tasks := db.tasks.filter (fun r => !(r.id == t.id)) } := by
  have hti : t.id = i := by simpa using List.find?_some hfind
  simp only [processTask, claimTask, hmin, hfind, htype, hfile, hread, if_true]
  rw [hti, tasks_filter_update]

def taskW7 : TaskRow :=
  { id := 1, ttype := "FILE", path := aPath, status := "PENDING"
    createdAt := "t0", updatedAt := "t0" }

def dbW7 : Db :=
  { directories := [], files := [], items := [], tasks := [taskW7]
    nextDirId := 1, nextFileId := 1, nextItemId := 1, nextTaskId := 2 }

theorem processTask_reader_error_completes_witness :
    processTask fsC1 readerErr "n" dbW7 =
      .ok { dbW7 with tasks := dbW7.tasks.filter (fun r => !(r.id == taskW7.id)) } :=
  processTask_reader_error_completes fsC1 readerErr "n" dbW7 1 taskW7 "corrupt"
    (by decide) (by decide) rfl (by decide) rfl

theorem writeDirectory_stat_none (stat : Str → Option String) (p : Str) (db : Db)
    (h : stat p = none) : ∃ e, writeDirectory stat p db = .error e := by
  simp only [writeDirectory, h]
  split
  · exact ⟨_, rfl⟩
  · split
    · exact ⟨_, rfl⟩
    · exact ⟨_, rfl⟩

theorem writeFileItems_stat_none (stat : Str → Option String) (p : Str)
    (items : List Str) (db : Db) (h : stat p = none) :
    ∃ e, writeFileItems stat p items db = .error e := by
  simp only [writeFileItems, h]
  split
  · exact ⟨_, rfl⟩
  · split
    · exact ⟨_, rfl⟩
    · split
      · exact ⟨_, rfl⟩
      · split
        · exact ⟨_, rfl⟩
        · exact ⟨_, rfl⟩

/-- C9: `write_directory` and `write_file_items` stat the target path
before writing: if the path cannot be statted they fail, and any
success implies the stat succeeded (existence of the path is a
precondition of every successful index write). -/
theorem writeOps_stat_precondition (stat : Str → Option String) (p : Str)
    (items : List Str) (db : Db) :
    (stat p = none →
      (∃ e, writeDirectory stat p db = .error e) ∧
      (∃ e, writeFileItems stat p items db = .error e)) ∧
    (∀ r, writeDirectory stat p db = .ok r → ∃ m, stat p = some m) ∧
    (∀ r, writeFileItems stat p items db = .ok r → ∃ m, stat p = some m) := by
  refine ⟨?_, ?_, ?_⟩
  · intro hstat
    exact ⟨writeDirectory_stat_none stat p db hstat,
           writeFileItems_stat_none stat p items db hstat⟩
  · intro r hok
    cases hstat : stat p with
    | some m => exact ⟨m, rfl⟩
    | none =>
      obtain ⟨e, he⟩ := writeDirectory_stat_none stat p db hstat
      rw [he] at hok
      cases hok
  · intro r hok
    cases hstat : stat p with
    | some m => exact ⟨m, rfl⟩
    | none =>
      obtain ⟨e, he⟩ := writeFileItems_stat_none stat p items db hstat
      rw [he] at hok
      cases hok

theorem writeOps_stat_precondition_witness :
    (∃ e, writeDirectory (fun _ => none) rPath emptyDb = .error e) ∧
    (∃ e, writeFileItems (fun _ => none) aPath [] emptyDb = .error e) :=
  ⟨((writeOps_stat_precondition (fun _ => none) rPath [] emptyDb).1 rfl).1,
   ((writeOps_stat_precondition (fun _ => none) aPath [] emptyDb).1 rfl).2⟩

/-! ### C6: `delete_file` -/

theorem fileKey_false_of_not_match (name : Str) (dirIds : List Nat) (f : FileRow)
    (h : ¬(f.name = name ∧ f.directoryId ∈ dirIds)) :
    (f.name == name && dirIds.contains f.directoryId) = false := by
  cases hfn : f.name == name with
  | false => simp
  | true =>
    have h1 : f.name = name := by simpa using hfn
    simp only [Bool.true_and]
    simpa using fun hm => h ⟨h1, hm⟩

/-- C6 counterexample: the claim "for every path P with no matching
file row delete_file returns success" fails at P = "/": the store has
no file rows at all, yet `delete_file("/")` errors (the path has no
file name component for `filename_to_str`). -/
theorem deleteFile_root_counterexample :
    emptyDb.files = [] ∧ deleteFile ['/'] emptyDb = .error "no file name" := by
  constructor
  · rfl
  · rfl

/-- C6 amended: for every absolute path that has a file name and a
parent, `delete_file` succeeds, deleting exactly the items of the
matching file rows and then those file rows; with no matching row the
store is unchanged, and rows of other files and their items are never
affected. -/
theorem deleteFile_spec (p : Str) (db : Db) (name par : Str)
    (habs : isAbsolute p = true)
    (hname : fileNameOf p = some name)
    (hpar : parentOf p = some par) :
    ∃ db', deleteFile p db = .ok db' ∧
      db'.directories = db.directories ∧
      db'.tasks = db.tasks ∧
      db'.files = db.files.filter (fun f =>
        !(f.name == name && (delDirIds par db).contains f.directoryId)) ∧
      db'.items = db.items.filter (fun i => !((delFids name par db).contains i.fileId)) ∧
      (∀ f ∈ db.files,
        ¬(f.name = name ∧ f.directoryId ∈ delDirIds par db) → f ∈ db'.files) ∧
      (∀ i ∈ db.items, i.fileId ∉ delFids name par db → i ∈ db'.items) ∧
      ((∀ f ∈ db.files, ¬(f.name = name ∧ f.directoryId ∈ delDirIds par db)) →
        db' = db) := by
  have hne : (!(isAbsolute p)) = false := by rw [habs]; rfl
  have hdel : deleteFile p db = .ok
      { db with
        items := db.items.filter (fun i => !((delFids name par db).contains i.fileId))
        files := db.files.filter (fun f =>
          !(f.name == name && (delDirIds par db).contains f.directoryId)) } := by
    simp only [deleteFile, hne, Bool.false_eq_true, if_false, hname, hpar]
    rfl
  refine ⟨_, hdel, rfl, rfl, rfl, rfl, ?_, ?_, ?_⟩
  · intro f hf hnomatch
    apply List.mem_filter.mpr
    refine ⟨hf, ?_⟩
    rw [fileKey_false_of_not_match name (delDirIds par db) f hnomatch]
    rfl
  · intro i hi hno
    apply List.mem_filter.mpr
    refine ⟨hi, ?_⟩
    simpa using hno
  · intro hnone
    have hfiles : db.files.filter (fun f =>
        !(f.name == name && (delDirIds par db).contains f.directoryId)) = db.files := by
      rw [List.filter_eq_self]
      intro f hf
      rw [fileKey_false_of_not_match name (delDirIds par db) f (hnone f hf)]
      rfl
    have hfids : delFids name par db = [] := by
      rw [delFids, List.map_eq_nil_iff, List.filter_eq_nil_iff]
      intro f hf
      rw [fileKey_false_of_not_match name (delDirIds par db) f (hnone f hf)]
      simp
    have hitems : db.items.filter (fun i => !((delFids name par db).contains i.fileId)) =
        db.items := by
      rw [List.filter_eq_self]
      intro i hi
      rw [hfids]
      rfl
    cases db with
    | mk dirs files items tasks a b c d =>
      simp only at hfiles hitems ⊢
      rw [hfiles, hitems]

theorem deleteFile_spec_witness :
    isAbsolute aPath = true ∧ fileNameOf aPath = some "a.txt".toList ∧
    parentOf aPath = some rPath ∧
    ∃ db', deleteFile aPath dbC4 = .ok db' ∧
      db'.directories = dbC4.directories ∧
      db'.tasks = dbC4.tasks ∧
      db'.files = dbC4.files.filter (fun f =>
        !(f.name == "a.txt".toList &&
          (delDirIds rPath dbC4).contains f.directoryId)) ∧
      db'.items = dbC4.items.filter (fun i =>
        !((delFids "a.txt".toList rPath dbC4).contains i.fileId)) ∧
      (∀ f ∈ dbC4.files,
        ¬(f.name = "a.txt".toList ∧ f.directoryId ∈ delDirIds rPath dbC4) →
          f ∈ db'.files) ∧
      (∀ i ∈ dbC4.items, i.fileId ∉ delFids "a.txt".toList rPath dbC4 →
          i ∈ db'.items) ∧
      ((∀ f ∈ dbC4.files,
          ¬(f.name = "a.txt".toList ∧ f.directoryId ∈ delDirIds rPath dbC4)) →
        db' = dbC4) :=
  ⟨by decide, by decide, by decide,
    deleteFile_spec aPath dbC4 "a.txt".toList rPath (by decide) (by decide) (by decide)⟩

/-! ### C4: `search_item` -/

/-- C5 counterexample: the parent path is interpolated into the
`LIKE` scan, so for P = "/a_b" the stored directory "/axb/q" — whose
path does not start with "/a_b/" — is returned as an immediate
sub-directory ("_" matches the "x"). -/
theorem getSub_wildcard_counterexample :
    getSubDirectoriesAndFiles "/a_b".toList dbC5 =
      .ok ([{ name := "q".toList, path := "/axb/q".toList, mtime := "T" }], []) ∧
    "/a_b/".toList.isPrefixOf "/axb/q".toList = false := by
  exact ⟨rfl, by decide⟩

/-- C5 amended: for every absolute path P, the returned sub-directories
are exactly the directory rows whose stored path matches
`LIKE 'P/%'` but not `LIKE 'P/%/%'` (SQLite semantics: `%`/`_` of P act
as wildcards, ASCII-case-insensitive; for wildcard-free P this is
"starts with P + separator with no further separator"), and the files
are exactly the file rows joined through `directory_id` to the row with
path P; in particular "/a/bc" is never a child of "/a/b". -/
theorem getSub_characterization (p : Str) (db : Db) (habs : isAbsolute p = true) :
    ∃ dirs files, getSubDirectoriesAndFiles p db = .ok (dirs, files) ∧
      (∀ r, r ∈ dirs ↔ ∃ d ∈ db.directories,
        likeMatch (p ++ ['/', '%']) d.path = true ∧
        likeMatch (p ++ ['/', '%', '/', '%']) d.path = false ∧
        r = { name := d.name, path := d.path, mtime := d.mtime }) ∧
      (∀ r, r ∈ files ↔ ∃ d ∈ db.directories, d.path = p ∧ ∃ f ∈ db.files,
        f.directoryId = d.id ∧ r = { name := f.name, path := d.path, mtime := f.mtime }) ∧
      (p = "/a/b".toList → ∀ r ∈ dirs, r.path ≠ "/a/bc".toList) := by
  have hne : (!(isAbsolute p)) = false := by rw [habs]; rfl
  refine ⟨(db.directories.filter (fun d =>
      likeMatch (p ++ ['/', '%']) d.path &&
        !(likeMatch (p ++ ['/', '%', '/', '%']) d.path))).map
        (fun d => ({ name := d.name, path := d.path, mtime := d.mtime } : DirOut)),
    (db.directories.filter (fun d => d.path == p)).flatMap (fun d =>
      (db.files.filter (fun f => f.directoryId == d.id)).map (fun f =>
        ({ name := f.name, path := d.path, mtime := f.mtime } : FileOut))),
    ?_, ?_, ?_, ?_⟩
  · simp only [getSubDirectoriesAndFiles, hne, Bool.false_eq_true, if_false]
  · intro r
    constructor
    · intro hr
      obtain ⟨d, hd, rfl⟩ := List.mem_map.mp hr
      have hdf := List.mem_filter.mp hd
      have hb := hdf.2
      simp only [Bool.and_eq_true, Bool.not_eq_true'] at hb
      exact ⟨d, hdf.1, hb.1, hb.2, rfl⟩
    · rintro ⟨d, hd, h1, h2, rfl⟩
      exact List.mem_map.mpr ⟨d, List.mem_filter.mpr ⟨hd, by simp [h1, h2]⟩, rfl⟩
  · intro r
    constructor
    · intro hr
      obtain ⟨d, hd, hmap⟩ := List.mem_flatMap.mp hr
      obtain ⟨f, hf, rfl⟩ := List.mem_map.mp hmap
      have hdp := List.mem_filter.mp hd
      have hff := List.mem_filter.mp hf
      exact ⟨d, hdp.1, by simpa using hdp.2, f, hff.1, by simpa using hff.2, rfl⟩
    · rintro ⟨d, hd, hdp, f, hf, hfd, rfl⟩
      exact List.mem_flatMap.mpr ⟨d, List.mem_filter.mpr ⟨hd, by simp [hdp]⟩,
        List.mem_map.mpr ⟨f, List.mem_filter.mpr ⟨hf, by simp [hfd]⟩, rfl⟩⟩
  · rintro rfl r hr hpath
    obtain ⟨d, hd, rfl⟩ := List.mem_map.mp hr
    have h1 := (List.mem_filter.mp hd).2
    simp only at hpath
    rw [hpath] at h1
    exact absurd h1 (by decide)

theorem getSub_characterization_witness :
    isAbsolute "/a_b".toList = true ∧
    ∃ dirs files, getSubDirectoriesAndFiles "/a_b".toList dbC5 = .ok (dirs, files) ∧
      (∀ r, r ∈ dirs ↔ ∃ d ∈ dbC5.directories,
        likeMatch ("/a_b".toList ++ ['/', '%']) d.path = true ∧
        likeMatch ("/a_b".toList ++ ['/', '%', '/', '%']) d.path = false ∧
        r = { name := d.name, path := d.path, mtime := d.mtime }) ∧
      (∀ r, r ∈ files ↔ ∃ d ∈ dbC5.directories, d.path = "/a_b".toList ∧
        ∃ f ∈ dbC5.files, f.directoryId = d.id ∧
          r = { name := f.name, path := d.path, mtime := f.mtime }) ∧
      ("/a_b".toList = "/a/b".toList → ∀ r ∈ dirs, r.path ≠ "/a/bc".toList) :=
  ⟨by decide, getSub_characterization "/a_b".toList dbC5 (by decide)⟩

/-! ### C8: `add_index_path` on an already configured root -/

/-- C8 evidence: `add_index_path` performs no duplicate check (the
source carries `TODO 检查是否重复、覆盖`): called on a quiescent,
fully indexed root that is already in the configured root list, it
returns success and appends the root a second time, instead of
rejecting the request and leaving the root list unchanged. -/
theorem addIndexPath_duplicate_accepted :
    stC8.roots = [rPath] ∧
    indexedOk supC1 rPath nodeC8 stC8.db = true ∧
    ∃ st', addIndexPath supC1 "t9" (some nodeC8) rPath stC8 = .ok st' ∧
      st'.roots = [rPath, rPath] ∧ st'.watched = [rPath] ∧ st'.db = stC8.db := by
  exact ⟨rfl, by decide, _, rfl, rfl, rfl, rfl⟩

/-! ### C1: idempotence of the Reconciler on a quiescent tree -/

/-- C1 counterexample: the tree `/r` containing only the supported file
`/r/a.txt` whose extraction fails.  The first run submits the directory
and file tasks; draining writes the directory row, logs the extractor
error, and empties the queue without indexing the file.  The on-disk
tree and the stored index are then unchanged, yet a second run submits
the file task again — the queue grows by one row instead of zero. -/
theorem reconciler_second_run_submits_counterexample :
    (submitIndexAllFiles supC1 "t1" rPath nodeC1 emptyDb = .ok dbRun1) ∧
    (processTask fsC1 readerErr "t2" dbRun1 = .ok dbHalf) ∧
    (processTask fsC1 readerErr "t3" dbHalf = .ok dbDrained) ∧
    dbDrained.tasks = [] ∧
    (∃ db2, submitIndexAllFiles supC1 "t4" rPath nodeC1 dbDrained = .ok db2 ∧
      db2.tasks.length = 1 ∧
      db2.directories = dbDrained.directories ∧
      db2.files = dbDrained.files ∧
      db2.items = dbDrained.items) := by
  exact ⟨rfl, rfl, rfl, rfl, _, rfl, rfl, rfl, rfl, rfl⟩

theorem reconciler_noop_both (sup : Str → Bool) (now : String) : ∀ (k : Nat),
    (∀ (p : Str) (mt : String) (entries : List (Str × FsNode)) (db : Db),
      sizeOf (FsNode.dir mt entries) ≤ k →
      indexedOk sup p (.dir mt entries) db = true →
      submitIndexAllFiles sup now p (.dir mt entries) db = .ok db) ∧
    (∀ (p : Str) (l : List (Str × FsNode)) (db : Db),
      sizeOf l ≤ k →
      indexedEntriesOk sup p l db = true →
      submitEntries sup now p l db = .ok db) := by
  intro k
  induction k with
  | zero =>
    constructor
    · intro p mt entries db hsz h
      exfalso
      have := FsNode.dir.sizeOf_spec mt entries
      omega
    · intro p l db hsz h
      cases l with
      | nil => rfl
      | cons e rest =>
        exfalso
        have := List.cons.sizeOf_spec e rest
        omega
  | succ k ih =>
    constructor
    · intro p mt entries db hsz h
      rw [indexedOk] at h
      obtain ⟨h1, h2⟩ := Bool.and_eq_true_iff.mp h
      cases hgd : getDirectory p db with
      | none => simp [hgd] at h1
      | some d =>
        have hmt : d.mtime = mt := by
          simp only [hgd] at h1
          exact beq_iff_eq.mp h1
        rw [submitIndexAllFiles]
        simp only [hgd]
        rw [if_pos hmt]
        apply ih.2 p entries db ?_ h2
        have := FsNode.dir.sizeOf_spec mt entries
        omega
    · intro p l db hsz h
      cases l with
      | nil => rfl
      | cons e rest =>
        obtain ⟨name, c⟩ := e
        have hszs : 1 + (1 + sizeOf name + sizeOf c) + sizeOf rest ≤ k + 1 := by
          have hc1 := List.cons.sizeOf_spec (name, c) rest
          have hc2 := Prod.mk.sizeOf_spec name c
          omega
        rw [indexedEntriesOk] at h
        obtain ⟨h1, h2⟩ := Bool.and_eq_true_iff.mp h
        have hstep : submitEntryStep sup now p (name, c) db = .ok db := by
          cases c with
          | file fmt =>
            rw [indexedEntryOk] at h1
            rw [submitEntryStep]
            split
            next idxFile hgf =>
              simp only [hgf] at h1
              rw [if_pos (beq_iff_eq.mp h1)]
            next hgf =>
              simp only [hgf] at h1
              have hsup : sup (joinPath p name) = false := by simpa using h1
              rw [hsup]
              rfl
          | dir a b =>
            rw [indexedEntryOk] at h1
            rw [submitEntryStep]
            apply ih.1 (joinPath p name) a b db ?_ h1
            have := FsNode.dir.sizeOf_spec a b
            omega
        rw [submitEntries, hstep]
        apply ih.2 p rest db ?_ h2
        omega

/-- C1 amended: `submit_index_all_files` is a no-op on a quiescent
fully indexed directory tree: if every directory of the tree has its
row with the on-disk modified time and every file either has its row
with the on-disk modified time or is unsupported and unindexed (i.e.
every drain succeeded), a second run submits no tasks, performs no
deletes, and leaves the whole store unchanged. -/
theorem reconciler_idempotent_on_indexed_tree (sup : Str → Bool) (now : String)
    (p : Str) (mt : String) (entries : List (Str × FsNode)) (db : Db)
    (h : indexedOk sup p (.dir mt entries) db = true) :
    submitIndexAllFiles sup now p (.dir mt entries) db = .ok db :=
  (reconciler_noop_both sup now (sizeOf (FsNode.dir mt entries))).1
    p mt entries db (le_refl _) h

theorem reconciler_idempotent_on_indexed_tree_witness :
    indexedOk supC1 rPath (.dir "T1" [("a.txt".toList, .file "T2")]) dbW1 = true ∧
    submitIndexAllFiles supC1 "t9" rPath
      (.dir "T1" [("a.txt".toList, .file "T2")]) dbW1 = .ok dbW1 :=
  ⟨by decide,
   reconciler_idempotent_on_indexed_tree supC1 "t9" rPath "T1"
     [("a.txt".toList, .file "T2")] dbW1 (by decide)⟩

/-! ### C10: `TxtReader::read` -/

theorem map_map_cons (n : Nat) (A1 : List Nat) (o : Option (List Nat)) :
    (o.map (fun l => A1 ++ l)).map (fun l => n :: l) =
      o.map (fun l => (n :: A1) ++ l) := by
  cases o <;> simp

theorem utf8Decode_append_fuel : ∀ (k : Nat) (a : List Nat), a.length ≤ k →
    ∀ (A bs : List Nat), utf8Decode a = some A →
    utf8Decode (a ++ bs) = (utf8Decode bs).map (fun l => A ++ l) := by
  intro k
  induction k with
  | zero =>
    intro a hlen A bs h
    have ha : a = [] := List.length_eq_zero.mp (Nat.le_zero.mp hlen)
    subst ha
    simp only [utf8Decode, Option.some.injEq] at h
    subst h
    simp
  | succ k ih =>
    intro a hlen A bs h
    cases a with
    | nil =>
      simp only [utf8Decode, Option.some.injEq] at h
      subst h
      simp
    | cons b0 rest =>
      have hrest : rest.length ≤ k := by
        simp only [List.length_cons] at hlen
        omega
      rw [utf8Decode] at h
      rw [List.cons_append, utf8Decode]
      by_cases h1 : b0 < 128
      · rw [if_pos h1] at h ⊢
        obtain ⟨A1, hA1, rfl⟩ := Option.map_eq_some'.mp h
        rw [ih rest hrest A1 bs hA1]
        exact map_map_cons b0 A1 _
      · rw [if_neg h1] at h ⊢
        by_cases h2 : b0 < 192
        · rw [if_pos h2] at h
          exact Option.noConfusion h
        · rw [if_neg h2] at h ⊢
          by_cases h3 : b0 < 224
          · rw [if_pos h3] at h ⊢
            cases rest with
            | nil =>
              rw [utf8Cont2] at h
              exact Option.noConfusion h
            | cons b1 rest1 =>
              have hr1 : rest1.length ≤ k := by
                simp only [List.length_cons] at hlen
                omega
              rw [utf8Cont2] at h
              rw [List.cons_append, utf8Cont2]
              by_cases hc : (contOk b1 && decide (128 ≤ (b0 - 192) * 64 + (b1 - 128))) = true
              · rw [if_pos hc] at h ⊢
                obtain ⟨A1, hA1, rfl⟩ := Option.map_eq_some'.mp h
                rw [ih rest1 hr1 A1 bs hA1]
                exact map_map_cons _ A1 _
              · rw [if_neg hc] at h
                exact Option.noConfusion h
          · rw [if_neg h3] at h ⊢
            by_cases h4 : b0 < 240
            · rw [if_pos h4] at h ⊢
              match rest with
              | [] =>
                rw [utf8Cont3] at h
                exact Option.noConfusion h
                intro b1 b2 rest2 hh
                simp at hh
              | [b1] =>
                rw [utf8Cont3] at h
                exact Option.noConfusion h
                intro c1 c2 rest2 hh
                simp at hh
              | b1 :: b2 :: rest2 =>
                have hr2 : rest2.length ≤ k := by
                  simp only [List.length_cons] at hlen
                  omega
                rw [utf8Cont3] at h
                rw [List.cons_append, List.cons_append, utf8Cont3]
                by_cases hc : (contOk b1 && contOk b2 &&
                    decide (2048 ≤ (b0 - 224) * 4096 + (b1 - 128) * 64 + (b2 - 128) ∧
                      ¬(55296 ≤ (b0 - 224) * 4096 + (b1 - 128) * 64 + (b2 - 128) ∧
                        (b0 - 224) * 4096 + (b1 - 128) * 64 + (b2 - 128) < 57344))) = true
                · rw [if_pos hc] at h ⊢
                  obtain ⟨A1, hA1, rfl⟩ := Option.map_eq_some'.mp h
                  rw [ih rest2 hr2 A1 bs hA1]
                  exact map_map_cons _ A1 _
                · rw [if_neg hc] at h
                  exact Option.noConfusion h
            · rw [if_neg h4] at h ⊢
              by_cases h5 : b0 < 248
              · rw [if_pos h5] at h ⊢
                match rest with
                | [] =>
                  rw [utf8Cont4] at h
                  exact Option.noConfusion h
                  intro c1 c2 c3 rest3 hh
                  simp at hh
                | [b1] =>
                  rw [utf8Cont4] at h
                  exact Option.noConfusion h
                  intro c1 c2 c3 rest3 hh
                  simp at hh
                | [b1, b2] =>
                  rw [utf8Cont4] at h
                  exact Option.noConfusion h
                  intro c1 c2 c3 rest3 hh
                  simp at hh
                | b1 :: b2 :: b3 :: rest3 =>
                  have hr3 : rest3.length ≤ k := by
                    simp only [List.length_cons] at hlen
                    omega
                  rw [utf8Cont4] at h
                  rw [List.cons_append, List.cons_append, List.cons_append, utf8Cont4]
                  by_cases hc : (contOk b1 && contOk b2 && contOk b3 &&
                      decide (65536 ≤ (b0 - 240) * 262144 + (b1 - 128) * 4096 +
                          (b2 - 128) * 64 + (b3 - 128) ∧
                        (b0 - 240) * 262144 + (b1 - 128) * 4096 + (b2 - 128) * 64 +
                          (b3 - 128) < 1114112)) = true
                  · rw [if_pos hc] at h ⊢
                    obtain ⟨A1, hA1, rfl⟩ := Option.map_eq_some'.mp h
                    rw [ih rest3 hr3 A1 bs hA1]
                    exact map_map_cons _ A1 _
                  · rw [if_neg hc] at h
                    exact Option.noConfusion h
              · rw [if_neg h5] at h
                exact Option.noConfusion h

theorem utf8Decode_append (a bs A : List Nat) (h : utf8Decode a = some A) :
    utf8Decode (a ++ bs) = (utf8Decode bs).map (fun l => A ++ l) :=
  utf8Decode_append_fuel a.length a (le_refl _) A bs h


theorem encodeScalar_decode (n : Nat) (rest : List Nat) (hn : ScalarOk n = true) :
    utf8Decode (encodeScalar n ++ rest) = (utf8Decode rest).map (fun l => n :: l) := by
  have hsc : n < 55296 ∨ (57344 ≤ n ∧ n < 1114112) := by
    simpa [ScalarOk, Bool.or_eq_true, Bool.and_eq_true, decide_eq_true_eq] using hn
  rw [encodeScalar]
  by_cases k1 : n < 128
  · rw [if_pos k1]
    simp only [List.cons_append, List.nil_append]
    rw [utf8Decode, if_pos k1]
  · rw [if_neg k1]
    by_cases k2 : n < 2048
    · rw [if_pos k2]
      simp only [List.cons_append, List.nil_append]
      have c1 : ¬(192 + n / 64 < 128) := by omega
      have c2 : ¬(192 + n / 64 < 192) := by omega
      have c3 : 192 + n / 64 < 224 := by omega
      rw [utf8Decode, if_neg c1, if_neg c2, if_pos c3, utf8Cont2]
      have hcond : (contOk (128 + n % 64) &&
          decide (128 ≤ (192 + n / 64 - 192) * 64 + (128 + n % 64 - 128))) = true := by
        simp only [contOk, Bool.and_eq_true, decide_eq_true_eq]
        omega
      rw [if_pos hcond]
      have hval : (192 + n / 64 - 192) * 64 + (128 + n % 64 - 128) = n := by omega
      rw [hval]
    · rw [if_neg k2]
      by_cases k3 : n < 65536
      · rw [if_pos k3]
        simp only [List.cons_append, List.nil_append]
        have c1 : ¬(224 + n / 4096 < 128) := by omega
        have c2 : ¬(224 + n / 4096 < 192) := by omega
        have c3 : ¬(224 + n / 4096 < 224) := by omega
        have c4 : 224 + n / 4096 < 240 := by omega
        rw [utf8Decode, if_neg c1, if_neg c2, if_neg c3, if_pos c4, utf8Cont3]
        have hval : (224 + n / 4096 - 224) * 4096 + (128 + n / 64 % 64 - 128) * 64 +
            (128 + n % 64 - 128) = n := by omega
        have hcond : (contOk (128 + n / 64 % 64) && contOk (128 + n % 64) &&
            decide (2048 ≤ (224 + n / 4096 - 224) * 4096 + (128 + n / 64 % 64 - 128) * 64 +
                (128 + n % 64 - 128) ∧
              ¬(55296 ≤ (224 + n / 4096 - 224) * 4096 + (128 + n / 64 % 64 - 128) * 64 +
                  (128 + n % 64 - 128) ∧
                (224 + n / 4096 - 224) * 4096 + (128 + n / 64 % 64 - 128) * 64 +
                  (128 + n % 64 - 128) < 57344))) = true := by
          rw [hval]
          simp only [contOk, Bool.and_eq_true, decide_eq_true_eq]
          omega
        rw [if_pos hcond, hval]
      · rw [if_neg k3]
        simp only [List.cons_append, List.nil_append]
        have hub : n < 1114112 := by omega
        have c1 : ¬(240 + n / 262144 < 128) := by omega
        have c2 : ¬(240 + n / 262144 < 192) := by omega
        have c3 : ¬(240 + n / 262144 < 224) := by omega
        have c4 : ¬(240 + n / 262144 < 240) := by omega
        have c5 : 240 + n / 262144 < 248 := by omega
        rw [utf8Decode, if_neg c1, if_neg c2, if_neg c3, if_neg c4, if_pos c5, utf8Cont4]
        have hval : (240 + n / 262144 - 240) * 262144 + (128 + n / 4096 % 64 - 128) * 4096 +
            (128 + n / 64 % 64 - 128) * 64 + (128 + n % 64 - 128) = n := by omega
        have hcond : (contOk (128 + n / 4096 % 64) && contOk (128 + n / 64 % 64) &&
            contOk (128 + n % 64) &&
            decide (65536 ≤ (240 + n / 262144 - 240) * 262144 +
                (128 + n / 4096 % 64 - 128) * 4096 + (128 + n / 64 % 64 - 128) * 64 +
                (128 + n % 64 - 128) ∧
              (240 + n / 262144 - 240) * 262144 + (128 + n / 4096 % 64 - 128) * 4096 +
                (128 + n / 64 % 64 - 128) * 64 + (128 + n % 64 - 128) < 1114112)) = true := by
          rw [hval]
          simp only [contOk, Bool.and_eq_true, decide_eq_true_eq]
          omega
        rw [if_pos hcond, hval]


theorem splitNl_eq_nil_iff (l : List Nat) : splitNl l = [] ↔ l = [] := by
  constructor
  · intro h
    cases l with
    | nil => rfl
    | cons b rest =>
      rw [splitNl] at h
      by_cases hb : b = 10
      · rw [if_pos hb] at h
        exact List.noConfusion h
      · rw [if_neg hb] at h
        cases hs : splitNl rest with
        | nil => rw [hs] at h; exact List.noConfusion h
        | cons hh tt => rw [hs] at h; exact List.noConfusion h
  · intro h
    subst h
    rfl

theorem flatten_splitNl (l : List Nat) : (splitNl l).flatten = l := by
  induction l with
  | nil => rfl
  | cons b rest ih =>
    rw [splitNl]
    by_cases hb : b = 10
    · rw [if_pos hb, hb]
      simp only [List.flatten_cons]
      rw [ih]
      rfl
    · rw [if_neg hb]
      cases hs : splitNl rest with
      | nil =>
        have : rest = [] := (splitNl_eq_nil_iff rest).mp hs
        subst this
        rfl
      | cons hh tt =>
        rw [hs] at ih
        simp only [List.flatten_cons] at ih ⊢
        rw [List.cons_append, ih]

theorem mapM_decode_mem : ∀ (l : List (List Nat)) (r : List (List Nat)),
    l.mapM utf8Decode = some r → ∀ c ∈ l, ∃ A, utf8Decode c = some A := by
  intro l
  induction l with
  | nil => intro r _ c hc; cases hc
  | cons x t ih =>
    intro r h c hc
    rw [List.mapM_cons] at h
    cases hx : utf8Decode x with
    | none => rw [hx] at h; exact Option.noConfusion h
    | some A =>
      rw [hx] at h
      cases ht : t.mapM utf8Decode with
      | none => rw [ht] at h; exact Option.noConfusion h
      | some rs =>
        rcases List.mem_cons.mp hc with rfl | hct
        · exact ⟨A, hx⟩
        · exact ih rs ht c hct

theorem utf8Decode_flatten : ∀ (chunks : List (List Nat)),
    (∀ c ∈ chunks, ∃ A, utf8Decode c = some A) →
    ∃ B, utf8Decode chunks.flatten = some B := by
  intro chunks
  induction chunks with
  | nil => intro _; exact ⟨[], rfl⟩
  | cons c t ih =>
    intro h
    obtain ⟨A, hA⟩ := h c (by simp)
    obtain ⟨B, hB⟩ := ih (fun x hx => h x (by simp [hx]))
    refine ⟨A ++ B, ?_⟩
    rw [List.flatten_cons, utf8Decode_append c t.flatten A hA, hB]
    rfl

/-- Half of C10: a byte sequence that is not valid UTF-8 makes
`TxtReader::read` fail as a whole, yielding no items at all. -/
theorem txtRead_error_of_invalid (bytes : List Nat)
    (h : utf8Decode bytes = none) : txtRead bytes = .error () := by
  rw [txtRead]
  cases hm : (splitNl bytes).mapM utf8Decode with
  | none => rfl
  | some lns =>
    exfalso
    obtain ⟨B, hB⟩ := utf8Decode_flatten (splitNl bytes)
      (mapM_decode_mem (splitNl bytes) lns hm)
    rw [flatten_splitNl] at hB
    rw [h] at hB
    exact Option.noConfusion hB

theorem encodeScalar_no_nl (n : Nat) (hn : n ≠ 10) : ∀ x ∈ encodeScalar n, x ≠ 10 := by
  intro x hx
  rw [encodeScalar] at hx
  by_cases k1 : n < 128
  · rw [if_pos k1] at hx
    rcases List.mem_singleton.mp hx with rfl
    exact hn
  · rw [if_neg k1] at hx
    by_cases k2 : n < 2048
    · rw [if_pos k2] at hx
      rcases List.mem_cons.mp hx with rfl | hx2
      · omega
      · rcases List.mem_singleton.mp hx2 with rfl
        omega
    · rw [if_neg k2] at hx
      by_cases k3 : n < 65536
      · rw [if_pos k3] at hx
        rcases List.mem_cons.mp hx with rfl | hx2
        · omega
        · rcases List.mem_cons.mp hx2 with rfl | hx3
          · omega
          · rcases List.mem_singleton.mp hx3 with rfl
            omega
      · rw [if_neg k3] at hx
        rcases List.mem_cons.mp hx with rfl | hx2
        · omega
        · rcases List.mem_cons.mp hx2 with rfl | hx3
          · omega
          · rcases List.mem_cons.mp hx3 with rfl | hx4
            · omega
            · rcases List.mem_singleton.mp hx4 with rfl
              omega

theorem encodeScalar_ne_nil (n : Nat) : encodeScalar n ≠ [] := by
  rw [encodeScalar]
  by_cases k1 : n < 128
  · rw [if_pos k1]; simp
  · rw [if_neg k1]
    by_cases k2 : n < 2048
    · rw [if_pos k2]; simp
    · rw [if_neg k2]
      by_cases k3 : n < 65536
      · rw [if_pos k3]; simp
      · rw [if_neg k3]; simp

theorem splitNl_append_no_nl : ∀ (pre l : List Nat), pre ≠ [] → (∀ x ∈ pre, x ≠ 10) →
    splitNl (pre ++ l) =
      (match splitNl l with
       | [] => [pre]
       | h :: t => (pre ++ h) :: t) := by
  intro pre
  induction pre with
  | nil => intro l h _; exact absurd rfl h
  | cons b pre' ih =>
    intro l _ hno
    have hb : b ≠ 10 := hno b (by simp)
    rw [List.cons_append, splitNl, if_neg hb]
    cases hpre' : pre' with
    | nil =>
      simp only [List.nil_append]
      cases hs : splitNl l with
      | nil => rfl
      | cons hh tt => rfl
    | cons c pre'' =>
      rw [← hpre']
      have hpne : pre' ≠ [] := by rw [hpre']; simp
      rw [ih l hpne (fun x hx => hno x (by simp [hx]))]
      cases hs : splitNl l with
      | nil => rfl
      | cons hh tt => rfl

theorem encodeAll_cons (n : Nat) (rest : List Nat) :
    encodeAll (n :: rest) = encodeScalar n ++ encodeAll rest := by
  rw [encodeAll, List.map_cons, List.flatten_cons]
  rfl

theorem splitNl_encodeAll : ∀ (ns : List Nat), (∀ n ∈ ns, ScalarOk n = true) →
    splitNl (encodeAll ns) = (splitNl ns).map encodeAll := by
  intro ns
  induction ns with
  | nil => intro _; rfl
  | cons n rest ih =>
    intro h
    have hrest := fun x hx => h x (List.mem_cons.mpr (Or.inr hx))
    rw [encodeAll_cons]
    by_cases hn : n = 10
    · subst hn
      have h10 : encodeScalar 10 = [10] := by rw [encodeScalar]; rw [if_pos (by omega)]
      rw [h10]
      rw [show ([10] : List Nat) ++ encodeAll rest = 10 :: encodeAll rest from rfl]
      rw [splitNl, if_pos rfl, ih hrest]
      rw [splitNl, if_pos rfl]
      rw [List.map_cons]
      congr 1
    · rw [splitNl_append_no_nl (encodeScalar n) (encodeAll rest)
        (encodeScalar_ne_nil n) (encodeScalar_no_nl n hn)]
      rw [ih hrest]
      rw [splitNl, if_neg hn]
      cases hs : splitNl rest with
      | nil =>
        have : rest = [] := (splitNl_eq_nil_iff rest).mp hs
        subst this
        simp only [List.map_nil]
        rw [List.map_cons, List.map_nil, encodeAll_cons,
          show encodeAll ([] : List Nat) = ([] : List Nat) from rfl, List.append_nil]
      | cons hh tt =>
        simp only [List.map_cons]
        rw [encodeAll_cons]


theorem utf8Decode_encodeAll : ∀ (ns : List Nat), (∀ n ∈ ns, ScalarOk n = true) →
    utf8Decode (encodeAll ns) = some ns := by
  intro ns
  induction ns with
  | nil => intro _; rfl
  | cons n rest ih =>
    intro h
    rw [encodeAll_cons]
    rw [encodeScalar_decode n (encodeAll rest) (h n (by simp))]
    rw [ih (fun x hx => h x (by simp [hx]))]
    rfl

theorem mapM_decode_map_encodeAll : ∀ (ls : List (List Nat)),
    (∀ l ∈ ls, ∀ n ∈ l, ScalarOk n = true) →
    (ls.map encodeAll).mapM utf8Decode = some ls := by
  intro ls
  induction ls with
  | nil => intro _; rfl
  | cons l rest ih =>
    intro h
    rw [List.map_cons, List.mapM_cons]
    rw [utf8Decode_encodeAll l (h l (by simp))]
    rw [ih (fun x hx => h x (by simp [hx]))]
    rfl

theorem mem_splitNl_mem : ∀ (ns : List Nat) (l : List Nat), l ∈ splitNl ns → ∀ x ∈ l, x ∈ ns := by
  intro ns
  induction ns with
  | nil => intro l hl; cases hl
  | cons b rest ih =>
    intro l hl x hx
    rw [splitNl] at hl
    by_cases hb : b = 10
    · rw [if_pos hb] at hl
      rcases List.mem_cons.mp hl with rfl | hl2
      · rcases List.mem_singleton.mp hx with rfl
        simp [hb]
      · exact List.mem_cons.mpr (Or.inr (ih l hl2 x hx))
    · rw [if_neg hb] at hl
      cases hs : splitNl rest with
      | nil =>
        rw [hs] at hl
        rcases List.mem_singleton.mp hl with rfl
        rcases List.mem_singleton.mp hx with rfl
        simp
      | cons hh tt =>
        rw [hs] at hl
        rcases List.mem_cons.mp hl with rfl | hl2
        · rcases List.mem_cons.mp hx with rfl | hx2
          · simp
          · exact List.mem_cons.mpr (Or.inr (ih hh (by rw [hs]; simp) x hx2))
        · exact List.mem_cons.mpr (Or.inr (ih l (by rw [hs]; simp [hl2]) x hx))

theorem txtRead_encodeAll (ns : List Nat) (h : ∀ n ∈ ns, ScalarOk n = true) :
    txtRead (encodeAll ns) = .ok ((splitNl ns).map (fun l => stripEol l)) := by
  rw [txtRead]
  rw [splitNl_encodeAll ns h]
  rw [mapM_decode_map_encodeAll (splitNl ns)
    (fun l hl n hn => h n (mem_splitNl_mem ns l hl n hn))]


set_option maxRecDepth 4000 in
theorem utf8Decode_canonical_fuel : ∀ (k : Nat) (a : List Nat), a.length ≤ k →
    ∀ ms, utf8Decode a = some ms →
    encodeAll ms = a ∧ ∀ n ∈ ms, ScalarOk n = true := by
  intro k
  induction k with
  | zero =>
    intro a hlen ms h
    have ha : a = [] := List.length_eq_zero.mp (Nat.le_zero.mp hlen)
    subst ha
    simp only [utf8Decode, Option.some.injEq] at h
    subst h
    exact ⟨rfl, by intro n hn; cases hn⟩
  | succ k ih =>
    intro a hlen ms h
    cases a with
    | nil =>
      simp only [utf8Decode, Option.some.injEq] at h
      subst h
      exact ⟨rfl, by intro n hn; cases hn⟩
    | cons b0 rest =>
      have hrest : rest.length ≤ k := by
        simp only [List.length_cons] at hlen
        omega
      rw [utf8Decode] at h
      by_cases h1 : b0 < 128
      · rw [if_pos h1] at h
        obtain ⟨A1, hA1, rfl⟩ := Option.map_eq_some'.mp h
        obtain ⟨henc, hok⟩ := ih rest hrest A1 hA1
        refine ⟨?_, ?_⟩
        · rw [encodeAll_cons, henc, encodeScalar, if_pos h1]
          rfl
        · intro n hn
          rcases List.mem_cons.mp hn with rfl | hn2
          · simp only [ScalarOk, Bool.or_eq_true, decide_eq_true_eq]
            left
            omega
          · exact hok n hn2
      · rw [if_neg h1] at h
        by_cases h2 : b0 < 192
        · rw [if_pos h2] at h
          exact Option.noConfusion h
        · rw [if_neg h2] at h
          by_cases h3 : b0 < 224
          · rw [if_pos h3] at h
            cases rest with
            | nil =>
              rw [utf8Cont2] at h
              exact Option.noConfusion h
            | cons b1 rest1 =>
              have hr1 : rest1.length ≤ k := by
                simp only [List.length_cons] at hlen
                omega
              rw [utf8Cont2] at h
              by_cases hc : (contOk b1 && decide (128 ≤ (b0 - 192) * 64 + (b1 - 128))) = true
              · rw [if_pos hc] at h
                obtain ⟨A1, hA1, rfl⟩ := Option.map_eq_some'.mp h
                obtain ⟨henc, hok⟩ := ih rest1 hr1 A1 hA1
                simp only [contOk, Bool.and_eq_true, decide_eq_true_eq] at hc
                obtain ⟨⟨hb1a, hb1b⟩, hv⟩ := hc
                refine ⟨?_, ?_⟩
                · rw [encodeAll_cons, henc, encodeScalar,
                    if_neg (by omega), if_pos (by omega)]
                  have e1 : 192 + ((b0 - 192) * 64 + (b1 - 128)) / 64 = b0 := by omega
                  have e2 : 128 + ((b0 - 192) * 64 + (b1 - 128)) % 64 = b1 := by omega
                  rw [e1, e2]
                  rfl
                · intro n hn
                  rcases List.mem_cons.mp hn with rfl | hn2
                  · simp only [ScalarOk, Bool.or_eq_true, decide_eq_true_eq]
                    left
                    omega
                  · exact hok n hn2
              · rw [if_neg hc] at h
                exact Option.noConfusion h
          · rw [if_neg h3] at h
            by_cases h4 : b0 < 240
            · rw [if_pos h4] at h
              match rest with
              | [] =>
                rw [utf8Cont3] at h
                exact Option.noConfusion h
                intro c1 c2 rest2 hh
                simp at hh
              | [b1] =>
                rw [utf8Cont3] at h
                exact Option.noConfusion h
                intro c1 c2 rest2 hh
                simp at hh
              | b1 :: b2 :: rest2 =>
                have hr2 : rest2.length ≤ k := by
                  simp only [List.length_cons] at hlen
                  omega
                rw [utf8Cont3] at h
                by_cases hc : (contOk b1 && contOk b2 &&
                    decide (2048 ≤ (b0 - 224) * 4096 + (b1 - 128) * 64 + (b2 - 128) ∧
                      ¬(55296 ≤ (b0 - 224) * 4096 + (b1 - 128) * 64 + (b2 - 128) ∧
                        (b0 - 224) * 4096 + (b1 - 128) * 64 + (b2 - 128) < 57344))) = true
                · rw [if_pos hc] at h
                  obtain ⟨A1, hA1, rfl⟩ := Option.map_eq_some'.mp h
                  obtain ⟨henc, hok⟩ := ih rest2 hr2 A1 hA1
                  simp only [contOk, Bool.and_eq_true, decide_eq_true_eq] at hc
                  obtain ⟨⟨⟨hb1a, hb1b⟩, hb2a, hb2b⟩, hv, hsur⟩ := hc
                  refine ⟨?_, ?_⟩
                  · rw [encodeAll_cons, henc, encodeScalar,
                      if_neg (by omega), if_neg (by omega), if_pos (by omega)]
                    have e1 : 224 + ((b0 - 224) * 4096 + (b1 - 128) * 64 + (b2 - 128)) / 4096
                        = b0 := by omega
                    have e2 : 128 + (((b0 - 224) * 4096 + (b1 - 128) * 64 + (b2 - 128)) / 64) % 64
                        = b1 := by omega
                    have e3 : 128 + ((b0 - 224) * 4096 + (b1 - 128) * 64 + (b2 - 128)) % 64
                        = b2 := by omega
                    rw [e1, e2, e3]
                    rfl
                  · intro n hn
                    rcases List.mem_cons.mp hn with rfl | hn2
                    · simp only [ScalarOk, Bool.or_eq_true, Bool.and_eq_true, decide_eq_true_eq]
                      omega
                    · exact hok n hn2
                · rw [if_neg hc] at h
                  exact Option.noConfusion h
            · rw [if_neg h4] at h
              by_cases h5 : b0 < 248
              · rw [if_pos h5] at h
                match rest with
                | [] =>
                  rw [utf8Cont4] at h
                  exact Option.noConfusion h
                  intro c1 c2 c3 rest3 hh
                  simp at hh
                | [b1] =>
                  rw [utf8Cont4] at h
                  exact Option.noConfusion h
                  intro c1 c2 c3 rest3 hh
                  simp at hh
                | [b1, b2] =>
                  rw [utf8Cont4] at h
                  exact Option.noConfusion h
                  intro c1 c2 c3 rest3 hh
                  simp at hh
                | b1 :: b2 :: b3 :: rest3 =>
                  have hr3 : rest3.length ≤ k := by
                    simp only [List.length_cons] at hlen
                    omega
                  rw [utf8Cont4] at h
                  by_cases hc : (contOk b1 && contOk b2 && contOk b3 &&
                      decide (65536 ≤ (b0 - 240) * 262144 + (b1 - 128) * 4096 +
                          (b2 - 128) * 64 + (b3 - 128) ∧
                        (b0 - 240) * 262144 + (b1 - 128) * 4096 + (b2 - 128) * 64 +
                          (b3 - 128) < 1114112)) = true
                  · rw [if_pos hc] at h
                    obtain ⟨A1, hA1, rfl⟩ := Option.map_eq_some'.mp h
                    obtain ⟨henc, hok⟩ := ih rest3 hr3 A1 hA1
                    simp only [contOk, Bool.and_eq_true, decide_eq_true_eq] at hc
                    obtain ⟨⟨⟨⟨hb1a, hb1b⟩, hb2a, hb2b⟩, hb3a, hb3b⟩, hv, hhi⟩ := hc
                    refine ⟨?_, ?_⟩
                    · rw [encodeAll_cons, henc, encodeScalar,
                        if_neg (by omega), if_neg (by omega), if_neg (by omega)]
                      have e1 : 240 + ((b0 - 240) * 262144 + (b1 - 128) * 4096 +
                          (b2 - 128) * 64 + (b3 - 128)) / 262144 = b0 := by omega
                      have e2 : 128 + (((b0 - 240) * 262144 + (b1 - 128) * 4096 +
                          (b2 - 128) * 64 + (b3 - 128)) / 4096) % 64 = b1 := by omega
                      have e3 : 128 + (((b0 - 240) * 262144 + (b1 - 128) * 4096 +
                          (b2 - 128) * 64 + (b3 - 128)) / 64) % 64 = b2 := by omega
                      have e4 : 128 + ((b0 - 240) * 262144 + (b1 - 128) * 4096 +
                          (b2 - 128) * 64 + (b3 - 128)) % 64 = b3 := by omega
                      rw [e1, e2, e3, e4]
                      rfl
                    · intro n hn
                      rcases List.mem_cons.mp hn with rfl | hn2
                      · simp only [ScalarOk, Bool.or_eq_true, Bool.and_eq_true, decide_eq_true_eq]
                        omega
                      · exact hok n hn2
                  · rw [if_neg hc] at h
                    exact Option.noConfusion h
              · rw [if_neg h5] at h
                exact Option.noConfusion h

theorem utf8Decode_canonical (bytes ms : List Nat) (h : utf8Decode bytes = some ms) :
    encodeAll ms = bytes ∧ ∀ n ∈ ms, ScalarOk n = true :=
  utf8Decode_canonical_fuel bytes.length bytes (le_refl _) ms h


/-- C10: `TxtReader::read` is all-or-nothing on UTF-8 validity. (a) If the
file's bytes are not valid UTF-8 as a whole, the read fails with an error
and yields no items at all (no partial sequence). (b) If the bytes are
valid UTF-8, decoding to the character sequence `ms`, the read succeeds
and returns exactly one item per line of `ms` — the newline-delimited
chunks of `ms` with the trailing `'\n'` (and a `'\r'` before it) stripped —
so empty lines are preserved as empty items. -/
theorem txtRead_utf8 (bytes : List Nat) :
    (utf8Decode bytes = none → txtRead bytes = .error ()) ∧
    (∀ ms, utf8Decode bytes = some ms →
      txtRead bytes = .ok ((splitNl ms).map stripEol)) := by
  constructor
  · exact txtRead_error_of_invalid bytes
  · intro ms hms
    obtain ⟨henc, hok⟩ := utf8Decode_canonical bytes ms hms
    rw [← henc]
    exact txtRead_encodeAll ms hok

/-- C10 witness: the invalid byte `0xFF` makes the whole read fail, and
the valid bytes of `"ab\n\nc"` yield the items `"ab"`, `""`, `"c"` with
the empty line preserved. -/
theorem txtRead_utf8_witness :
    txtRead [255] = .error () ∧
    txtRead [97, 98, 10, 10, 99] = .ok [[97, 98], [], [99]] := by
  constructor
  · exact (txtRead_utf8 [255]).1 rfl
  · have h := (txtRead_utf8 [97, 98, 10, 10, 99]).2 [97, 98, 10, 10, 99] rfl
    rw [h]
    rfl

end DuckIndex
